import Mathlib

/-!
# TQL: a shallow embedding of the tag-tree query language and its matcher

This file embeds the TQL implementation (`tql/parser.py`, `tql/ast.py`) into
Lean 4 and proves properties of the embedding.

Modelling conventions:
* HTML tag trees (the bs4 tag-tree interface) are modelled by the rose tree
  `HNode`; a *tag reference* is a `TPath`, the list of child indices from the
  document root.  Reference identity of bs4 nodes corresponds to path equality
  (the document is a genuine tree, so each node has exactly one path).
* Python generators are modelled as eagerly produced `List`s in yield order.
* Exceptions raised inside matching are modelled with `Except`: an error
  collapses the whole enumeration (the source yields a prefix lazily before
  raising; no claim below depends on that prefix).
* Machine-level details that no claim touches (regex engine of `~~`, the exact
  `repr` Python uses for list-valued attributes, non-ASCII `str.isdigit`
  characters) are parameterised by oracles or simplified, with a comment at
  each spot.
* The unbounded worklist loop of `RepOp.full_match` can genuinely run forever
  (a lazy infinite generator in Python), so it takes an explicit fuel
  parameter; theorems about it are proved for every fuel.
-/

namespace TQL

instance {ε α : Type} [DecidableEq ε] [DecidableEq α] : DecidableEq (Except ε α)
  | .ok a, .ok b =>
    if h : a = b then isTrue (by rw [h]) else isFalse (by intro hh; cases hh; exact h rfl)
  | .error a, .error b =>
    if h : a = b then isTrue (by rw [h]) else isFalse (by intro hh; cases hh; exact h rfl)
  | .ok _, .error _ => isFalse (by intro h; cases h)
  | .error _, .ok _ => isFalse (by intro h; cases h)

/-! ## §1 Lexer string decoding (`tql/parser.py`, `decode_string`)

`decode_string` applies `re.sub(r"\\(u[0-9A-Fa-f]{4}|U[0-9A-Fa-f]{8}|x[0-9A-Fa-f]{2}|[0-7]{1,3}|.)", replace, s)`.
We model the scan of `re.sub` directly on the character list, with the
alternation tried in order and `.` not matching a newline.  Output is the list
of resulting code points (`List Nat`) rather than a Lean `String`, because
Python `chr` admits lone surrogates which Lean `Char` cannot represent.
Failures of `int(...)`/`chr(...)` inside `replace` become `Except.error`. -/

/-- `[0-7]` -/
def isOct (c : Char) : Bool := '0' ≤ c && c ≤ '7'

/-- `[0-9A-Fa-f]` -/
def isHexD (c : Char) : Bool :=
  c.isDigit || ('a' ≤ c && c ≤ 'f') || ('A' ≤ c && c ≤ 'F')

/-- Python `str.isdigit`, restricted to ASCII.  The source predicate is
full-Unicode: every character with the Unicode digit property satisfies it, so
`decode_string` routes e.g. `\٤` (ARABIC-INDIC FOUR) through `int(txt, 8)`
and decodes it to `chr(4)`, and raises `ValueError` on `\²` (SUPERSCRIPT
TWO).  This model does not encode the Unicode digit table; `replaceOne`
guards the single-character path with an explicit ASCII test and reports
`nonAsciiUnmodelled` beyond it, so `pyIsDigit` is only ever consulted where
it agrees with the source, and the keep-literal theorem below carries the
matching ASCII hypothesis. -/
def pyIsDigit (c : Char) : Bool := c.isDigit

def hexDigitVal (c : Char) : Nat :=
  if c.isDigit then c.toNat - 48
  else if 'a' ≤ c && c ≤ 'f' then c.toNat - 87
  else c.toNat - 55

/-- value of `int(txt, 16)` for a string of hex digits -/
def hexVal (ds : List Char) : Nat := ds.foldl (fun acc c => 16 * acc + hexDigitVal c) 0

/-- value of `int(txt, 8)` for a string of octal digits -/
def octVal (ds : List Char) : Nat := ds.foldl (fun acc c => 8 * acc + (c.toNat - 48)) 0

def intBase8Error : String := "invalid literal for int() with base 8"

def intBase16Error : String := "invalid literal for int() with base 16"

/-- Python `chr`: any code point below 0x110000 (lone surrogates included). -/
def pyChr (n : Nat) : Except String Nat :=
  if n < 0x110000 then .ok n else .error "chr() arg not in range(0x110000)"

/-- `SINGLE_STRING_ESCAPES` -/
def escMap (c : Char) : Option Nat :=
  if c = '\\' then some 92
  else if c = '\'' then some 39
  else if c = '"' then some 34
  else if c = 'a' then some 7
  else if c = 'b' then some 8
  else if c = 'f' then some 12
  else if c = 'n' then some 10
  else if c = 'r' then some 13
  else if c = 't' then some 9
  else if c = 'v' then some 11
  else none

def nonAsciiUnmodelled : String :=
  "single-character escape outside ASCII: not modelled"

/-- `replace` on a single-character group (the `.` branch of the regex, or a
one-digit octal match): the escape table, then `txt.isdigit()` with
`chr(int(txt, 8))`, then the `u`/`U`/`x` prefixes with `int(txt[1:], 16)`
(which fails because `txt[1:]` is empty), else keep `"\\" + txt`.
Outside ASCII the branch taken depends on the Unicode digit table behind
`str.isdigit` (e.g. `'٤'.isdigit()` and `'²'.isdigit()` are both true, so the
source decodes `\٤` to `chr(4)` and raises `ValueError` on `\²`), which this
embedding does not encode: the model returns the explicit
`nonAsciiUnmodelled` error there instead of guessing, and every theorem about
this path carries an ASCII hypothesis. -/
def replaceOne (c : Char) : Except String (List Nat) :=
  match escMap c with
  | some e => .ok [e]
  | none =>
    if c.toNat ≥ 128 then .error nonAsciiUnmodelled
    else if pyIsDigit c then
      if isOct c then do
        let v ← pyChr (octVal [c])
        .ok [v]
      else .error intBase8Error
    else if c = 'u' || c = 'U' then .error intBase16Error
    else if c = 'x' then .error intBase16Error
    else .ok [92, c.toNat]

/-- The `re.sub` scan of `decode_string`.  Alternatives in regex order:
`u`+4 hex, `U`+8 hex, `x`+2 hex, one to three octal digits (greedy), then `.`
(any character but a newline); at a position where nothing matches the
character is copied and the scan moves on. -/
def decodeAux : List Char → Except String (List Nat)
  | [] => .ok []
  | '\\' :: 'u' :: c1 :: c2 :: c3 :: c4 :: rest =>
    if isHexD c1 && isHexD c2 && isHexD c3 && isHexD c4 then do
      let v ← pyChr (hexVal [c1, c2, c3, c4])
      let rs ← decodeAux rest
      .ok (v :: rs)
    else .error intBase16Error
  | '\\' :: 'u' :: _ => .error intBase16Error
  | '\\' :: 'U' :: c1 :: c2 :: c3 :: c4 :: c5 :: c6 :: c7 :: c8 :: rest =>
    if isHexD c1 && isHexD c2 && isHexD c3 && isHexD c4
        && isHexD c5 && isHexD c6 && isHexD c7 && isHexD c8 then do
      let v ← pyChr (hexVal [c1, c2, c3, c4, c5, c6, c7, c8])
      let rs ← decodeAux rest
      .ok (v :: rs)
    else .error intBase16Error
  | '\\' :: 'U' :: _ => .error intBase16Error
  | '\\' :: 'x' :: c1 :: c2 :: rest =>
    if isHexD c1 && isHexD c2 then do
      let rs ← decodeAux rest
      .ok (hexVal [c1, c2] :: rs)
    else .error intBase16Error
  | '\\' :: 'x' :: _ => .error intBase16Error
  | '\\' :: c1 :: c2 :: c3 :: rest =>
    if isOct c1 then
      if isOct c2 then
        if isOct c3 then do
          let v ← pyChr (octVal [c1, c2, c3])
          let rs ← decodeAux rest
          .ok (v :: rs)
        else do
          let v ← pyChr (octVal [c1, c2])
          let rs ← decodeAux (c3 :: rest)
          .ok (v :: rs)
      else do
        let v ← pyChr (octVal [c1])
        let rs ← decodeAux (c2 :: c3 :: rest)
        .ok (v :: rs)
    else if c1 = '\n' then do
      -- `.` does not match a newline: no match at the backslash, which is
      -- copied; the scan resumes at the newline.
      let rs ← decodeAux (c1 :: c2 :: c3 :: rest)
      .ok (92 :: rs)
    else do
      let r ← replaceOne c1
      let rs ← decodeAux (c2 :: c3 :: rest)
      .ok (r ++ rs)
  | ['\\', c1, c2] =>
    if isOct c1 then
      if isOct c2 then do
        let v ← pyChr (octVal [c1, c2])
        .ok [v]
      else do
        let v ← pyChr (octVal [c1])
        let rs ← decodeAux [c2]
        .ok (v :: rs)
    else if c1 = '\n' then do
      let rs ← decodeAux [c1, c2]
      .ok (92 :: rs)
    else do
      let r ← replaceOne c1
      let rs ← decodeAux [c2]
      .ok (r ++ rs)
  | ['\\', c1] =>
    if isOct c1 then do
      let v ← pyChr (octVal [c1])
      .ok [v]
    else if c1 = '\n' then do
      let rs ← decodeAux [c1]
      .ok (92 :: rs)
    else do
      let r ← replaceOne c1
      .ok r
  | ['\\'] => .ok [92]
  | c :: rest => do
    let rs ← decodeAux rest
    .ok (c.toNat :: rs)

/-- `decode_string` -/
def decodeString (s : String) : Except String (List Nat) := decodeAux s.data


/-! ## §2 The tag-tree interface (the bs4 capability set of spec §6)

A parsed document is an `HNode` rose tree whose root carries the sentinel name
`"[document]"`.  A bs4 node reference is a `TPath`: the child-index route from
the root.  Attribute values are strings, except multi-valued attributes
(`class`), which bs4 stores as lists of strings. -/

/-- A reference to a node of the fixed document: child indices from the root. -/
abbrev TPath := List Nat

inductive AttrV
  | str (s : String)
  | strs (l : List String)
deriving DecidableEq, Repr

inductive HNode
  | tag (name : String) (attrs : List (String × AttrV)) (children : List HNode)
  | text (s : String)
deriving Repr

/-- Follow a path down the tree. -/
def getNode : HNode → TPath → Option HNode
  | n, [] => some n
  | .tag _ _ cs, i :: p =>
    match cs.get? i with
    | some c => getNode c p
    | none => none
  | .text _, _ :: _ => none

/-- `isinstance(node, bs4.Tag)` for the node at `p`. -/
def isTagPath (doc : HNode) (p : TPath) : Bool :=
  match getNode doc p with
  | some (.tag _ _ _) => true
  | _ => false

/-- `node.name` (defaulting to `""` on an invalid path, which matching never
produces). -/
def nameAt (doc : HNode) (p : TPath) : String :=
  match getNode doc p with
  | some (.tag n _ _) => n
  | _ => ""

def attrsAt (doc : HNode) (p : TPath) : List (String × AttrV) :=
  match getNode doc p with
  | some (.tag _ a _) => a
  | _ => []

/-- dictionary lookup behind `node.get(name)` -/
def attrLookup : List (String × AttrV) → String → Option AttrV
  | [], _ => none
  | (k, v) :: rest, a => if k = a then some v else attrLookup rest a

/-- Python `str()` of an attribute value.  For list-valued attributes the
source produces the Python list repr; its exact quoting (`repr` escaping) is
immaterial to every claim, which only concern string-valued attributes. -/
def pyStrOfAttr : AttrV → String
  | .str s => s
  | .strs l => "[" ++ String.intercalate ", " (l.map (fun s => "'" ++ s ++ "'")) ++ "]"

mutual

/-- `node.text`: the concatenation of every descendant string, in document
order (bs4 `get_text`). -/
def textOfN : HNode → String
  | .text s => s
  | .tag _ _ cs => textOfL cs

def textOfL : List HNode → String
  | [] => ""
  | c :: cs => textOfN c ++ textOfL cs

end

def textAt (doc : HNode) (p : TPath) : String :=
  match getNode doc p with
  | some n => textOfN n
  | none => ""

mutual

/-- Relative paths of all strict descendants (tags and texts), preorder:
bs4 `node.descendants` in document order. -/
def subPathsN : HNode → List TPath
  | .text _ => []
  | .tag _ _ cs => subPathsL 0 cs

def subPathsL : Nat → List HNode → List TPath
  | _, [] => []
  | i, c :: cs => ([i] :: (subPathsN c).map (fun q => i :: q)) ++ subPathsL (i + 1) cs

end

def childCount (doc : HNode) (p : TPath) : Nat :=
  match getNode doc p with
  | some (.tag _ _ cs) => cs.length
  | _ => 0

/-- `node.children` as paths (tags and texts, in order). -/
def childPaths (doc : HNode) (p : TPath) : List TPath :=
  (List.range (childCount doc p)).map (fun i => p ++ [i])

/-- the tag-kind children, as iterated by `Tag.full_match` in DEPTH mode -/
def childTagPaths (doc : HNode) (p : TPath) : List TPath :=
  (childPaths doc p).filter (fun q => isTagPath doc q)

/-- `node.descendants` as paths. -/
def descendantPaths (doc : HNode) (p : TPath) : List TPath :=
  match getNode doc p with
  | some n => (subPathsN n).map (fun q => p ++ q)
  | none => []

/-- the tag-kind descendants, document order -/
def descendantTagPaths (doc : HNode) (p : TPath) : List TPath :=
  (descendantPaths doc p).filter (fun q => isTagPath doc q)

/-- `node.next_siblings` as paths (ascending order). -/
def nextSiblingPaths (doc : HNode) (p : TPath) : List TPath :=
  match p.getLast? with
  | none => []
  | some i =>
    ((List.range (childCount doc p.dropLast)).filter (fun j => i < j)).map
      (fun j => p.dropLast ++ [j])

/-- `node.previous_siblings` as paths.  bs4 iterates them right to left; only
existence of a tag among them is ever consumed, so the ascending order here is
immaterial. -/
def prevSiblingPaths (doc : HNode) (p : TPath) : List TPath :=
  match p.getLast? with
  | none => []
  | some i =>
    ((List.range (childCount doc p.dropLast)).filter (fun j => j < i)).map
      (fun j => p.dropLast ++ [j])

/-- `any(isinstance(t, bs4.Tag) for t in node.previous_siblings)` -/
def hasPrecedingTagSibling (doc : HNode) (p : TPath) : Bool :=
  (prevSiblingPaths doc p).any (fun q => isTagPath doc q)

/-- walking `node.next_siblings` up to the first tag -/
def firstTagSibling (doc : HNode) (p : TPath) : Option TPath :=
  (nextSiblingPaths doc p).find? (fun q => isTagPath doc q)

/-- `isinstance(node.parent, bs4.Tag)`: the root's parent is `None`; every
other node's parent is the tag above it. -/
def parentIsTag (doc : HNode) (p : TPath) : Bool :=
  !p.isEmpty && isTagPath doc p.dropLast

/-! ## §3 AST data model (`tql/ast.py`)

Each AST class becomes a constructor carrying a `mode : Option Mode` field,
`None` until `validate` runs (Python sets `self.mode` in `__post_init__` and
overwrites it during validation; our functional `validate` returns the
re-annotated tree).  The tag variants form their own type `TagNd`, mirroring
the `Tag` subclass hierarchy (the parser only ever places tags under tag
positions, so the defensive `isinstance` check in `Tag.validate`, marked
`pragma: no cover`, is unreachable). -/

inductive Mode
  | DEPTH
  | BREADTH
deriving DecidableEq, Repr

def Mode.opposite : Mode → Mode
  | .DEPTH => .BREADTH
  | .BREADTH => .DEPTH

inductive TravSide
  | LEFT
  | RIGHT
deriving DecidableEq, Repr

/-- `Extractor`.  `uid` models Python object identity: distinct `Extractor`
objects in the AST are distinct identities even when `type` coincides
(`ExtractorMatch.__eq__` compares extractors with `is`). -/
structure Extractor where
  type : String
  uid : Nat
deriving DecidableEq, Repr

/-- `str.startswith` -/
def pyStartsWith (s pre : String) : Bool := pre.data.isPrefixOf s.data

/-- `ExtractorResult = Union[bs4.Tag, str]` -/
inductive ExtractorResult
  | tag (p : TPath)
  | str (s : String)
deriving DecidableEq, Repr

/-- `Extractor.extract` -/
def Extractor.extract (doc : HNode) (ex : Extractor) (p : TPath) : ExtractorResult :=
  if ex.type = "node" then .tag p
  else if ex.type = "txt" then .str (textAt doc p)
  else if pyStartsWith ex.type "." then
    .str (pyStrOfAttr ((attrLookup (attrsAt doc p) (ex.type.drop 1)).getD (.str "")))
  else .str ""  -- the source raises here (`pragma: no cover`); unreachable after validation

/-- One entry of an extraction group: either an `ExtractorMatch` leaf (node
and extractor, both by identity) or a nested group tuple.  The leaf keeps the
node optional because Python types it as the (asserted non-null) `current`
field; claim C10 is exactly that the null case never arises over tags. -/
inductive EM
  | leaf (node : Option TPath) (ext : Extractor)
  | grp (items : List EM)
deriving Repr

mutual

def EM.decEq : (a b : EM) → Decidable (a = b)
  | .leaf n1 e1, .leaf n2 e2 =>
    if h1 : n1 = n2 then
      if h2 : e1 = e2 then isTrue (by rw [h1, h2])
      else isFalse (by intro h; cases h; exact h2 rfl)
    else isFalse (by intro h; cases h; exact h1 rfl)
  | .grp l1, .grp l2 =>
    match EM.decEqList l1 l2 with
    | isTrue h => isTrue (by rw [h])
    | isFalse h => isFalse (by intro hh; cases hh; exact h rfl)
  | .leaf _ _, .grp _ => isFalse (by intro h; cases h)
  | .grp _, .leaf _ _ => isFalse (by intro h; cases h)

def EM.decEqList : (a b : List EM) → Decidable (a = b)
  | [], [] => isTrue rfl
  | [], _ :: _ => isFalse (by intro h; cases h)
  | _ :: _, [] => isFalse (by intro h; cases h)
  | x :: xs, y :: ys =>
    match EM.decEq x y, EM.decEqList xs ys with
    | isTrue h1, isTrue h2 => isTrue (by rw [h1, h2])
    | isFalse h1, _ => isFalse (by intro h; cases h; exact h1 rfl)
    | _, isFalse h2 => isFalse (by intro h; cases h; exact h2 rfl)

end

instance : DecidableEq EM := EM.decEq

/-- The `Match` record.  `globaldata` is omitted: it is constant for a whole
run and `Match.__eq__`/`__hash__` ignore it, so the embedding passes it as an
ambient parameter instead.  Node references compare by path, matching the
reference-identity comparison (`is`) of the source. -/
structure Match where
  current : Option TPath
  next : Option TPath
  exts : List (List EM)
  travSide : Option TravSide
deriving DecidableEq, Repr

/-- `Match.progress`.  `exts[:-1] + (exts[-1] + ext,)` when `ext` is given;
`trav_side or self.trav_side` (enum members are truthy). -/
def Match.progress (m : Match) (c n : Option TPath) (ext : Option (List EM))
    (ts : Option TravSide) : Match :=
  { current := c
    next := n
    exts :=
      match ext with
      | some ex => m.exts.dropLast ++ [m.exts.getLastD [] ++ ex]
      | none => m.exts
    travSide :=
      match ts with
      | some s => some s
      | none => m.travSide }

/-- `Match.subgroup`: push an empty group, `exts + ((),)`. -/
def Match.subgroup (m : Match) (ignore : Bool) : Match :=
  if ignore then m else { m with exts := m.exts ++ [[]] }

/-- `Match.degroup`: `exts[:-2] + (exts[-2] + (exts[-1],),)` — pop the top
group and append it, as one nested tuple, to the group below.  (On an `exts`
shorter than two the source would raise `IndexError`; reachable states always
have the subgroup that is being closed, so the `getLastD` defaults are inert.) -/
def Match.degroup (m : Match) (ignore : Bool) : Match :=
  if ignore then m
  else
    { m with
      exts := m.exts.dropLast.dropLast
        ++ [m.exts.dropLast.getLastD [] ++ [.grp (m.exts.getLastD [])]] }

def Match.side (m : Match) (s : TravSide) : Match := { m with travSide := some s }

/-- values flowing through `FilterExpr.value` -/
inductive FVal
  | vStr (s : String)
  | vTag (p : TPath)
  | vBool (b : Bool)
  | vInt (n : Int)
deriving DecidableEq, Repr

/-- `FilterExpr` variants.  `LiteralFilter` holds the decoded STRING or NUMBER
token, hence an `FVal`. -/
inductive FilterExpr
  | extractorF (ex : Extractor)
  | opF (l : FilterExpr) (op : String) (r : FilterExpr)
  | funcF (name : String)
  | literalF (v : FVal)
deriving DecidableEq, Repr

/-- `GlobalData`, plus the regex oracle: `regexSearch pattern s` stands for
`re.compile(pattern).search(s) is not None`, which no claim interprets. -/
structure GlobalData where
  filterFuncs : List (String × (TPath → Bool))
  regexSearch : String → String → Bool

/-- matcher-time failures (Python raises `RuntimeError`/`AssertionError`/`KeyError`) -/
inductive MErr
  | notADocument
  | assertExtract
  | assertFilter
  | unknownFunc (name : String)
  | regexType (side : String)
deriving DecidableEq, Repr

/-- Python truthiness of a filter value. -/
def truthy : FVal → Bool
  | .vStr s => s ≠ ""
  | .vTag _ => true
  | .vBool b => b
  | .vInt n => n ≠ 0

/-- Python `==` over the values a filter can produce (bool is an int subtype).
bs4 compares tags structurally; over a fixed tree, path equality only differs
for distinct equal-content nodes, which no claim exercises. -/
def fvalEq : FVal → FVal → Bool
  | .vStr a, .vStr b => a = b
  | .vTag a, .vTag b => a = b
  | .vInt a, .vInt b => a = b
  | .vBool a, .vBool b => a = b
  | .vBool a, .vInt b => b = (if a then 1 else 0)
  | .vInt a, .vBool b => a = (if b then 1 else 0)
  | _, _ => false

def gdLookup : List (String × (TPath → Bool)) → String → Option (TPath → Bool)
  | [], _ => none
  | (k, f) :: rest, n => if k = n then some f else gdLookup rest n

/-- `FilterExpr.value`.  `and`/`or` short-circuit before `bool(...)`;
`~~`/`!~` demand strings on both sides and consult the regex oracle. -/
def filterValue (doc : HNode) (gd : GlobalData) : FilterExpr → TPath → Except MErr FVal
  | .extractorF ex, p =>
    match ex.extract doc p with
    | .tag q => .ok (.vTag q)
    | .str s => .ok (.vStr s)
  | .literalF v, _ => .ok v
  | .funcF n, p =>
    match gdLookup gd.filterFuncs n with
    | some f => .ok (.vBool (f p))
    | none => .error (.unknownFunc n)
  | .opF l op r, p =>
    if op = "&&" then do
      let a ← filterValue doc gd l p
      if truthy a then do
        let b ← filterValue doc gd r p
        .ok (.vBool (truthy b))
      else .ok (.vBool false)
    else if op = "||" then do
      let a ← filterValue doc gd l p
      if truthy a then .ok (.vBool true)
      else do
        let b ← filterValue doc gd r p
        .ok (.vBool (truthy b))
    else if op = "==" then do
      let a ← filterValue doc gd l p
      let b ← filterValue doc gd r p
      .ok (.vBool (fvalEq a b))
    else if op = "!=" then do
      let a ← filterValue doc gd l p
      let b ← filterValue doc gd r p
      .ok (.vBool (!fvalEq a b))
    else if op = "~~" then do
      let a ← filterValue doc gd l p
      match a with
      | .vStr attr => do
        let b ← filterValue doc gd r p
        match b with
        | .vStr pat => .ok (.vBool (gd.regexSearch pat attr))
        | _ => .error (.regexType "RHS")
      | _ => .error (.regexType "LHS")
    else if op = "!~" then do
      let a ← filterValue doc gd l p
      match a with
      | .vStr attr => do
        let b ← filterValue doc gd r p
        match b with
        | .vStr pat => .ok (.vBool (!gd.regexSearch pat attr))
        | _ => .error (.regexType "RHS")
      | _ => .error (.regexType "LHS")
    else .ok (.vBool false)  -- the source raises here (`pragma: no cover`)

/-- The `Tag` subclasses.  `NameTag.name` is `Optional` (`@` parses to
`NameTag(None)`). -/
inductive TagNd
  | nameTag (mode : Option Mode) (name : Option String)
  | classTag (mode : Option Mode) (klass : String)
  | idTag (mode : Option Mode) (id : String)
  | bothTag (mode : Option Mode) (left right : TagNd)
  | notTag (mode : Option Mode) (expr : TagNd)
deriving DecidableEq, Repr

/-- the `self.mode` attribute of a tag node -/
def TagNd.mode : TagNd → Option Mode
  | .nameTag mo _ => mo
  | .classTag mo _ => mo
  | .idTag mo _ => mo
  | .bothTag mo _ _ => mo
  | .notTag mo _ => mo

/-- `Tag.has_name`: `NameTag` answers `self.name is not None`; `NotTag`
overrides with `False`; the default is any-child. -/
def TagNd.hasName : TagNd → Bool
  | .nameTag _ n => n.isSome
  | .classTag _ _ => false
  | .idTag _ _ => false
  | .bothTag _ l r => l.hasName || r.hasName
  | .notTag _ _ => false

/-- `Tag.has_id`: `IdTag` answers `True`; `NotTag` overrides with `False`. -/
def TagNd.hasId : TagNd → Bool
  | .nameTag _ _ => false
  | .classTag _ _ => false
  | .idTag _ _ => true
  | .bothTag _ l r => l.hasId || r.hasId
  | .notTag _ _ => false

/-- `tag_match` of each `Tag` subclass. -/
def tagMatch (doc : HNode) : TagNd → TPath → Bool
  | .nameTag _ n, p =>
    -- `not self.name or node.name == self.name`
    match n with
    | none => true
    | some s => s == "" || nameAt doc p == s
  | .classTag _ k, p =>
    -- `klasses = node.get("class", []); isinstance(klasses, list) and self.klass in klasses`
    match attrLookup (attrsAt doc p) "class" with
    | some (.strs l) => l.contains k
    | _ => false
  | .idTag _ i, p =>
    -- `self.id == node.get("id")`
    match attrLookup (attrsAt doc p) "id" with
    | some (.str s) => i == s
    | _ => false
  | .bothTag _ l r, p => tagMatch doc l p && tagMatch doc r p
  | .notTag _ t, p => !tagMatch doc t p

/-- The remaining `Node` subclasses. -/
inductive Nd
  | tag (t : TagNd)
  | extractors (mode : Option Mode) (expr : Nd) (exl : List Extractor)
  | filter (mode : Option Mode) (expr : Nd) (f : FilterExpr)
  | travOp (mode : Option Mode) (left : Nd) (op : String) (right : Nd)
  | repOp (mode : Option Mode) (expr : Nd) (travOp : String) (repOp : String)
  | monOp (mode : Option Mode) (expr : Nd) (op : String)
  | binOp (mode : Option Mode) (left : Nd) (op : String) (right : Nd)
  | modeSwitch (mode outerMode : Option Mode) (tagExpr childExpr : Nd)
  | endNode (mode : Option Mode)
  | document (mode : Option Mode) (expr : Nd)
deriving DecidableEq, Repr

/-- `Node.has_extractors`: any child has extractors; `Extractors` adds
`bool(self.extractors)`.  Extractors inside a `Filter`'s filter expression do
not count (`Filter.children` is only `[self.expr]`). -/
def Nd.hasExtractors : Nd → Bool
  | .tag _ => false
  | .extractors _ e exl => !exl.isEmpty || e.hasExtractors
  | .filter _ e _ => e.hasExtractors
  | .travOp _ l _ r => l.hasExtractors || r.hasExtractors
  | .repOp _ e _ _ => e.hasExtractors
  | .monOp _ e _ => e.hasExtractors
  | .binOp _ l _ r => l.hasExtractors || r.hasExtractors
  | .modeSwitch _ _ te ce => te.hasExtractors || ce.hasExtractors
  | .endNode _ => false
  | .document _ e => e.hasExtractors

/-! ## §4 Validation (spec §4.3) -/

/-- validation failures, named by the spec's error categories (the source
raises `RuntimeError` with a message for each) -/
inductive VErr
  | modeMismatch (op : String) (m : Mode)
  | tagShape (msg : String)
  | invalidExtractor (type : String)
deriving DecidableEq, Repr

/-- the mode-compatibility test of `TravOp.validate` / `RepOp.validate`:
`op in (":", "::") and mode is not BREADTH or op in (">", ">>") and mode is not DEPTH` -/
def modeBad (op : String) (md : Mode) : Bool :=
  ((op = ":" || op = "::") && md ≠ Mode.BREADTH)
    || ((op = ">" || op = ">>") && md ≠ Mode.DEPTH)

/-- `Tag.validate`: children first (`Node.validate`), then `self.mode = mode`;
`BothTag.validate` additionally rejects a name on the right and two ids. -/
def tagValidate : TagNd → Mode → Except VErr TagNd
  | .nameTag _ n, md => .ok (.nameTag (some md) n)
  | .classTag _ k, md => .ok (.classTag (some md) k)
  | .idTag _ i, md => .ok (.idTag (some md) i)
  | .bothTag _ l r, md => do
    let l' ← tagValidate l md
    let r' ← tagValidate r md
    if r.hasName then .error (.tagShape "Tag name should be on the left")
    else if l.hasId && r.hasId then .error (.tagShape "Cannot have two or more ids")
    else .ok (.bothTag (some md) l' r')
  | .notTag _ t, md => do
    let t' ← tagValidate t md
    .ok (.notTag (some md) t')

/-- `Extractor.validate`: the type must start with `.` or be `node`/`txt`. -/
def extractorTypeOk (t : String) : Bool :=
  pyStartsWith t "." || t = "node" || t = "txt"

/-- `Node.validate` and its overrides.  `TravOp`/`RepOp` test the operator
against the mode before recursing; `ModeSwitch` records `outer_mode`,
validates `tag_expr` in the same mode and `child_expr` in the opposite one —
and never assigns `self.mode` (no `super().validate` call). -/
def validate : Nd → Mode → Except VErr Nd
  | .tag t, md => do
    let t' ← tagValidate t md
    .ok (.tag t')
  | .extractors _ e exl, md => do
    let e' ← validate e md
    match exl.find? (fun ex => !extractorTypeOk ex.type) with
    | some bad => .error (.invalidExtractor bad.type)
    | none => .ok (.extractors (some md) e' exl)
  | .filter _ e f, md => do
    let e' ← validate e md
    .ok (.filter (some md) e' f)
  | .travOp _ l op r, md =>
    if modeBad op md then .error (.modeMismatch op md)
    else do
      let l' ← validate l md
      let r' ← validate r md
      .ok (.travOp (some md) l' op r')
  | .repOp _ e trav rep, md =>
    if modeBad trav md then .error (.modeMismatch trav md)
    else do
      let e' ← validate e md
      .ok (.repOp (some md) e' trav rep)
  | .monOp _ e op, md => do
    let e' ← validate e md
    .ok (.monOp (some md) e' op)
  | .binOp _ l op r, md => do
    let l' ← validate l md
    let r' ← validate r md
    .ok (.binOp (some md) l' op r')
  | .modeSwitch mo _ te ce, md => do
    let te' ← validate te md
    let ce' ← validate ce md.opposite
    .ok (.modeSwitch mo (some md) te' ce')
  | .endNode _, md => .ok (.endNode (some md))
  | .document _ e, md => do
    let e' ← validate e md
    .ok (.document (some md) e')

/-! ## §5 The matcher (spec §4.4)

Python generators become lists in yield order; `yield from` inside nested
`for` loops becomes `listBindE`, with `Except` carrying an abort of the whole
enumeration. -/

def listBindE {α β ε : Type} : List α → (α → Except ε (List β)) → Except ε (List β)
  | [], _ => .ok []
  | x :: xs, f => do
    let ys ← f x
    let zs ← listBindE xs f
    .ok (ys ++ zs)

def listMapE {α β ε : Type} : List α → (α → Except ε β) → Except ε (List β)
  | [], _ => .ok []
  | x :: xs, f => do
    let y ← f x
    let ys ← listMapE xs f
    .ok (y :: ys)

def listFilterE {α ε : Type} : List α → (α → Except ε Bool) → Except ε (List α)
  | [], _ => .ok []
  | x :: xs, f => do
    let b ← f x
    let ys ← listFilterE xs f
    .ok (if b then x :: ys else ys)

/-- `Tag.full_match`: nothing unless `next` exists and `tag_match` holds; in
DEPTH mode one yield per tag child of `next` (or a single `next = None` yield
when there is none); otherwise advance `next` to its first following tag
sibling (or `None`). -/
def tagFullMatch (doc : HNode) (t : TagNd) (m : Match) : List Match :=
  match m.next with
  | none => []
  | some p =>
    if !tagMatch doc t p then []
    else if t.mode = some Mode.DEPTH then
      let cs := childTagPaths doc p
      if cs.isEmpty then [m.progress (some p) none none none]
      else cs.map (fun c => m.progress (some p) (some c) none none)
    else
      match firstTagSibling doc p with
      | some s => [m.progress (some p) (some s) none none]
      | none => [m.progress (some p) none none none]

/-- `descend_by_op` -/
def descendByOp (doc : HNode) (n : Option TPath) (op : String) : List (Option TPath) :=
  if op = ">" then [n]
  else if op = ">>" then
    n :: (match n with
      | none => []
      | some p => (descendantTagPaths doc p).map some)
  else if op = ":" then [n]
  else if op = "::" then
    n :: (match n with
      | none => []
      | some p => ((nextSiblingPaths doc p).filter (fun q => isTagPath doc q)).map some)
  else []  -- the source raises here (`pragma: no cover`); the parser only emits the four operators

/-- The body of `RepOp.full_match`'s inner `for smatch in ...` loop: returns
(yields, stack appends, updated seen).  Membership of each pushed `ssmatch`
is tested against `seen` *before* `smatch` is added (`seen.add` runs after the
push loop), so a state can enqueue itself. -/
def repProcess (doc : HNode) (trav : String) (ig : Bool) :
    List Match → List Match → List Match × List Match × List Match
  | [], seen => ([], [], seen)
  | sm :: sms, seen =>
    let sm' := sm.degroup ig
    if sm' ∈ seen then repProcess doc trav ig sms seen
    else
      let pushes := (descendByOp doc sm'.next trav).filterMap (fun sub =>
        let ss := sm'.progress sm'.current sub none none
        if ss ∈ seen then none else some ss)
      let rest := repProcess doc trav ig sms (sm' :: seen)
      (sm'.degroup ig :: rest.1, pushes ++ rest.2.1, rest.2.2)

/-- The FIFO worklist of `RepOp.full_match` (`collections.deque`, `popleft`
/ `append`).  The source loop runs until the queue empties, which for a
repetition containing extractors can be never (the generator is then
infinite); `fuel` bounds the number of dequeues, and every theorem about it
holds for every fuel. -/
def repLoop (f : Match → Except MErr (List Match)) (doc : HNode) (trav : String)
    (ig : Bool) : Nat → List Match → List Match → Except MErr (List Match)
  | 0, _, _ => .ok []
  | _ + 1, [], _ => .ok []
  | fuel + 1, cur :: rest, seen => do
    let sms ← f (cur.subgroup ig)
    let step := repProcess doc trav ig sms seen
    let tailOut ← repLoop f doc trav ig fuel (rest ++ step.2.1) step.2.2
    .ok (step.1 ++ tailOut)

/-- `full_match` of every `Node` subclass.  `fuel` only feeds the `RepOp`
worklist; all other recursion is structural over the AST. -/
def fullMatch (doc : HNode) (gd : GlobalData) (fuel : Nat) : Nd → Match → Except MErr (List Match)
  | .tag t, m => .ok (tagFullMatch doc t m)
  | .extractors _ expr exl, m => do
    -- `Extractors.full_match`: assert `current` non-null, then append one
    -- `ExtractorMatch` per extractor to the current group.
    let sms ← fullMatch doc gd fuel expr m
    listMapE sms (fun sm =>
      match sm.current with
      | some c =>
        .ok (sm.progress (some c) sm.next (some (exl.map (fun ex => EM.leaf (some c) ex))) none)
      | none => .error .assertExtract)
  | .filter _ expr f, m => do
    -- `Filter.full_match`: assert `current` non-null, keep truthy values.
    let sms ← fullMatch doc gd fuel expr m
    listFilterE sms (fun sm =>
      match sm.current with
      | some c => do
        let v ← filterValue doc gd f c
        .ok (truthy v)
      | none => .error .assertFilter)
  | .travOp _ l op r, m => do
    let ls ← fullMatch doc gd fuel l (m.side .LEFT)
    listBindE ls (fun lm =>
      listBindE (descendByOp doc lm.next op) (fun n =>
        fullMatch doc gd fuel r ((lm.progress lm.current n none none).side .RIGHT)))
  | .repOp _ expr trav rep, m =>
    -- `ignore = not self.has_extractors` (the node's children are `[expr]`)
    let ig := !expr.hasExtractors
    let m1 := m.subgroup ig
    do
      let loopOut ← repLoop (fullMatch doc gd fuel expr) doc trav ig fuel [m1] [m1]
      .ok ((if rep = "*" then [m1.degroup ig] else []) ++ loopOut)
  | .monOp _ e op, m =>
    if op = "?" then do
      let r ← fullMatch doc gd fuel e m
      .ok (m :: r)
    else .ok []  -- the source raises here (`pragma: no cover`)
  | .binOp _ l op r, m =>
    if op = "|" then do
      let a ← fullMatch doc gd fuel l m
      let b ← fullMatch doc gd fuel r m
      .ok (a ++ b)
    else .ok []  -- the source raises here (`pragma: no cover`)
  | .modeSwitch _ om te ce, m =>
    if om = some Mode.DEPTH then do
      let sms ← fullMatch doc gd fuel te m
      listBindE sms (fun sm => fullMatch doc gd fuel ce sm)
    else do
      let sms ← fullMatch doc gd fuel te m
      listBindE sms (fun sm =>
        listBindE (descendByOp doc sm.current ">") (fun sub => do
          let rs ← fullMatch doc gd fuel ce (sm.progress sm.current sub none none)
          .ok (rs.map (fun ssm => ssm.progress ssm.current sm.next none none))))
  | .endNode md, m =>
    .ok
      (if m.travSide = some TravSide.LEFT then
        match m.next with
        | none => [m]
        | some p =>
          if md = some Mode.BREADTH && !hasPrecedingTagSibling doc p then [m]
          else if md = some Mode.DEPTH && !parentIsTag doc p then [m]
          else []
      else if m.next = none then [m]
      else [])
  | .document _ expr, m =>
    if (match m.next with
        | some p => nameAt doc p != "[document]"
        | none => false) then
      .error .notADocument
    else
      listBindE (descendByOp doc m.next ">>") (fun n =>
        fullMatch doc gd fuel expr (m.progress m.next n none none))

/-- the deduplication of `start_match`, keeping first occurrences -/
def dedupFirst {α : Type} [DecidableEq α] (seen : List α) : List α → List α
  | [] => []
  | x :: xs => if x ∈ seen then dedupFirst seen xs else x :: dedupFirst (x :: seen) xs

/-- `match.exts[0]`, the outermost extraction group -/
def ext0 (m : Match) : List EM := m.exts.headD []

/-- `Node.start_match`: run `full_match` on `Match(None, node, ((),), None, …)`
and yield each unseen outer group.  (A raise inside the lazy source generator
would cut the stream short; the `Except` model drops the prefix, which no
claim observes.) -/
def startMatch (doc : HNode) (gd : GlobalData) (fuel : Nat) (e : Nd) (root : TPath) :
    List (List EM) :=
  match fullMatch doc gd fuel e ⟨none, some root, [[]], none⟩ with
  | .ok ms => dedupFirst [] (ms.map ext0)
  | .error _ => []

/-! ## §6 Fixtures

A small concrete document (`<p><p>hi</p></p>` under the synthetic root) and
expressions, used by the witness theorems. -/

def docW : HNode :=
  .tag "[document]" [] [.tag "p" [("id", .str "outer")] [.tag "p" [] [.text "hi"]]]

def gdW : GlobalData := ⟨[], fun _ _ => false⟩

def exNodeW : Extractor := ⟨"node", 0⟩

/-- the compiled form of `@[node] > $` -/
def qW : Nd :=
  .document (some .DEPTH)
    (.travOp (some .DEPTH)
      (.extractors (some .DEPTH) (.tag (.nameTag (some .DEPTH) none)) [exNodeW])
      ">" (.endNode (some .DEPTH)))

/-- the initial match of `start_match` on the root of `docW` -/
def mW : Match := ⟨none, some [], [[]], none⟩

/-! ## §7 Theorems about the deduplication of `start_match` -/

theorem mem_dedupFirst {α : Type} [DecidableEq α] (l : List α) :
    ∀ (seen : List α) (x : α), x ∈ dedupFirst seen l ↔ x ∈ l ∧ x ∉ seen := by
  induction l with
  | nil => intro seen x; simp [dedupFirst]
  | cons y ys ih =>
    intro seen x
    simp only [dedupFirst]
    by_cases hy : y ∈ seen
    · rw [if_pos hy, ih]
      simp only [List.mem_cons]
      constructor
      · rintro ⟨hx, hn⟩
        exact ⟨Or.inr hx, hn⟩
      · rintro ⟨hx | hx, hn⟩
        · exact absurd (hx ▸ hy) hn
        · exact ⟨hx, hn⟩
    · rw [if_neg hy]
      simp only [List.mem_cons, ih, List.mem_cons]
      constructor
      · rintro (hx | ⟨hx, hn⟩)
        · exact ⟨Or.inl hx, hx ▸ hy⟩
        · exact ⟨Or.inr hx, fun hs => hn (Or.inr hs)⟩
      · rintro ⟨hx | hx, hn⟩
        · exact Or.inl hx
        · by_cases hxy : x = y
          · exact Or.inl hxy
          · exact Or.inr ⟨hx, fun hs => (by rcases hs with h | h; exact hxy h; exact hn h)⟩

/-- number of occurrences of `x` in `l` -/
def countOcc {α : Type} [DecidableEq α] (x : α) (l : List α) : Nat :=
  (l.filter (fun y => decide (y = x))).length

theorem countOcc_eq_one {α : Type} [DecidableEq α] :
    ∀ {l : List α}, l.Nodup → ∀ {x : α}, x ∈ l → countOcc x l = 1 := by
  intro l
  induction l with
  | nil => intro _ x hx; cases hx
  | cons y ys ih =>
    intro h x hx
    rcases List.mem_cons.mp hx with rfl | hmem
    · have hnotin : x ∉ ys := (List.nodup_cons.mp h).1
      have hfil : ys.filter (fun y => decide (y = x)) = [] := by
        rw [List.filter_eq_nil_iff]
        intro a ha
        simp only [decide_eq_true_eq]
        intro hax
        exact hnotin (hax ▸ ha)
      simp [countOcc, List.filter, hfil]
    · have hyx : y ≠ x := by
        intro hyx
        exact (List.nodup_cons.mp h).1 (hyx ▸ hmem)
      have := ih (List.nodup_cons.mp h).2 hmem
      simpa [countOcc, List.filter, hyx] using this

theorem nodup_dedupFirst {α : Type} [DecidableEq α] (l : List α) :
    ∀ seen : List α, (dedupFirst seen l).Nodup := by
  induction l with
  | nil => intro _; simp [dedupFirst]
  | cons y ys ih =>
    intro seen
    simp only [dedupFirst]
    by_cases hy : y ∈ seen
    · rw [if_pos hy]
      exact ih seen
    · rw [if_neg hy]
      refine List.nodup_cons.mpr ⟨?_, ih _⟩
      rw [mem_dedupFirst]
      rintro ⟨-, hn⟩
      exact hn (List.mem_cons_self _ _)

/-- Claim C2: for every compiled expression, document root, and
filter-function mapping, the sequence yielded by `start_match` contains
pairwise distinct outermost extraction groups (`exts[0]`, compared as
structural tuples whose `ExtractorMatch` leaves compare by node identity and
extractor identity); every outer group produced by `full_match` surfaces
exactly once. -/
theorem startMatch_outer_groups_distinct
    (doc : HNode) (gd : GlobalData) (fuel : Nat) (e : Nd) (root : TPath) :
    (startMatch doc gd fuel e root).Nodup ∧
      ∀ ms, fullMatch doc gd fuel e ⟨none, some root, [[]], none⟩ = .ok ms →
        ∀ g ∈ ms.map ext0, countOcc g (startMatch doc gd fuel e root) = 1 := by
  have hnd : (startMatch doc gd fuel e root).Nodup := by
    unfold startMatch
    cases fullMatch doc gd fuel e ⟨none, some root, [[]], none⟩ with
    | ok ms => exact nodup_dedupFirst _ _
    | error _ => simp
  refine ⟨hnd, ?_⟩
  intro ms hms g hg
  have hmem : g ∈ startMatch doc gd fuel e root := by
    unfold startMatch
    rw [hms, mem_dedupFirst]
    exact ⟨hg, by simp⟩
  exact countOcc_eq_one hnd hmem

/-! ## §8 The `RepOp` worklist: the zero-iteration case comes first (C1) -/

theorem bindE_ok {ε α β : Type} (a : α) (f : α → Except ε β) :
    (Except.ok a >>= f) = f a := rfl

theorem bindE_err {ε α β : Type} (e : ε) (f : α → Except ε β) :
    ((Except.error e : Except ε α) >>= f) = Except.error e := rfl

theorem repProcess_yields (doc : HNode) (trav : String) (ig : Bool) :
    ∀ (sms seen : List Match) (x : Match), x ∈ (repProcess doc trav ig sms seen).1 →
      ∃ sm ∈ sms, x = (sm.degroup ig).degroup ig := by
  intro sms
  induction sms with
  | nil => intro seen x hx; simp [repProcess] at hx
  | cons sm sms ih =>
    intro seen x hx
    simp only [repProcess] at hx
    by_cases h : sm.degroup ig ∈ seen
    · rw [if_pos h] at hx
      obtain ⟨sm', hmem, hx⟩ := ih _ _ hx
      exact ⟨sm', List.mem_cons_of_mem _ hmem, hx⟩
    · rw [if_neg h] at hx
      rcases List.mem_cons.mp hx with h1 | h1
      · exact ⟨sm, List.mem_cons_self _ _, h1⟩
      · obtain ⟨sm', hmem, hx⟩ := ih _ _ h1
        exact ⟨sm', List.mem_cons_of_mem _ hmem, hx⟩

theorem repLoop_yields (f : Match → Except MErr (List Match)) (doc : HNode)
    (trav : String) (ig : Bool) :
    ∀ (fuel : Nat) (stack seen out : List Match),
      repLoop f doc trav ig fuel stack seen = .ok out →
      ∀ x ∈ out, ∃ (cur : Match) (sms : List Match), f (cur.subgroup ig) = .ok sms ∧
        ∃ sm ∈ sms, x = (sm.degroup ig).degroup ig := by
  intro fuel
  induction fuel with
  | zero =>
    intro stack seen out h x hx
    simp only [repLoop] at h
    cases h
    cases hx
  | succ fuel ih =>
    intro stack seen out h x hx
    match stack with
    | [] =>
      simp only [repLoop] at h
      cases h
      cases hx
    | cur :: rest =>
      simp only [repLoop] at h
      cases hf : f (cur.subgroup ig) with
      | error e =>
        rw [hf, bindE_err] at h
        simp at h
      | ok sms =>
        rw [hf, bindE_ok] at h
        cases hl : repLoop f doc trav ig fuel
            (rest ++ (repProcess doc trav ig sms seen).2.1)
            (repProcess doc trav ig sms seen).2.2 with
        | error e =>
          rw [hl, bindE_err] at h
          simp at h
        | ok tailOut =>
          rw [hl, bindE_ok] at h
          simp only [Except.ok.injEq] at h
          subst h
          rcases List.mem_append.mp hx with hx | hx
          · obtain ⟨sm, hmem, hx⟩ := repProcess_yields doc trav ig sms seen x hx
            exact ⟨cur, sms, hf, sm, hmem, hx⟩
          · exact ih _ _ _ hl x hx

/-- Claim C1: for every `RepOp` node with `rep_op = "*"` and every input
match, `full_match` yields the zero-iteration case — `m.degroup(ignore)` after
the initial subgroup push, which is `m` itself when `ignore` holds (no
extractors inside the repetition) — first, before any result that went through
at least one iteration of the repeated expression; with `rep_op = "+"` every
yielded result went through at least one iteration, so no zero-iteration
result is yielded. -/
theorem repOp_zero_iteration_first (doc : HNode) (gd : GlobalData) (fuel : Nat)
    (mo : Option Mode) (expr : Nd) (trav rep : String) (m : Match) (out : List Match)
    (h : fullMatch doc gd fuel (.repOp mo expr trav rep) m = .ok out) :
    ((!expr.hasExtractors) = true →
      (m.subgroup (!expr.hasExtractors)).degroup (!expr.hasExtractors) = m) ∧
    (rep = "*" →
      ∃ rest,
        out = (m.subgroup (!expr.hasExtractors)).degroup (!expr.hasExtractors) :: rest ∧
        ∀ x ∈ rest, ∃ (cur : Match) (sms : List Match),
          fullMatch doc gd fuel expr (cur.subgroup (!expr.hasExtractors)) = .ok sms ∧
          ∃ sm ∈ sms,
            x = (sm.degroup (!expr.hasExtractors)).degroup (!expr.hasExtractors)) ∧
    (rep = "+" →
      ∀ x ∈ out, ∃ (cur : Match) (sms : List Match),
        fullMatch doc gd fuel expr (cur.subgroup (!expr.hasExtractors)) = .ok sms ∧
        ∃ sm ∈ sms,
          x = (sm.degroup (!expr.hasExtractors)).degroup (!expr.hasExtractors)) := by
  refine ⟨?_, ?_, ?_⟩
  · intro hig
    rw [hig]
    rfl
  · intro hrep
    subst hrep
    simp only [fullMatch] at h
    cases hl : repLoop (fullMatch doc gd fuel expr) doc trav (!expr.hasExtractors) fuel
        [m.subgroup (!expr.hasExtractors)] [m.subgroup (!expr.hasExtractors)] with
    | error e =>
      rw [hl, bindE_err] at h
      simp at h
    | ok loopOut =>
      rw [hl, bindE_ok] at h
      simp only [if_pos rfl, Except.ok.injEq] at h
      refine ⟨loopOut, ?_, ?_⟩
      · rw [← h]
        rfl
      · intro x hx
        exact repLoop_yields _ doc trav _ fuel _ _ _ hl x hx
  · intro hrep
    subst hrep
    simp only [fullMatch] at h
    cases hl : repLoop (fullMatch doc gd fuel expr) doc trav (!expr.hasExtractors) fuel
        [m.subgroup (!expr.hasExtractors)] [m.subgroup (!expr.hasExtractors)] with
    | error e =>
      rw [hl, bindE_err] at h
      simp at h
    | ok loopOut =>
      rw [hl, bindE_ok] at h
      simp only [Except.ok.injEq] at h
      have hout : out = loopOut := by
        rw [← h]
        simp
      subst hout
      intro x hx
      exact repLoop_yields _ doc trav _ fuel _ _ _ hl x hx

/-- the compiled repeated expression of `(zz >)*`; `zz` matches nothing in `docW` -/
def repExprW : Nd := .tag (.nameTag (some .DEPTH) (some "zz"))

/-- witness for C1: `(zz >)*` on `docW` yields exactly the zero-iteration case -/
theorem repOp_zero_iteration_first_witness :
    ∃ rest,
      [mW] = (mW.subgroup (!repExprW.hasExtractors)).degroup (!repExprW.hasExtractors) :: rest ∧
      ∀ x ∈ rest, ∃ (cur : Match) (sms : List Match),
        fullMatch docW gdW 3 repExprW (cur.subgroup (!repExprW.hasExtractors)) = .ok sms ∧
        ∃ sm ∈ sms,
          x = (sm.degroup (!repExprW.hasExtractors)).degroup (!repExprW.hasExtractors) :=
  (repOp_zero_iteration_first docW gdW 3 (some .DEPTH) repExprW ">" "*" mW [mW]
    (by decide)).2.1 rfl

/-- witness for C2 at the fixture query `@[node] > $` on `docW` -/
theorem startMatch_outer_groups_distinct_witness :
    countOcc [EM.leaf (some [0, 0]) exNodeW] (startMatch docW gdW 10 qW []) = 1 := by
  refine (startMatch_outer_groups_distinct docW gdW 10 qW []).2
    [⟨some [0, 0], none, [[EM.leaf (some [0, 0]) exNodeW]], some .RIGHT⟩] (by decide)
    [EM.leaf (some [0, 0]) exNodeW] (by decide)

/-! ## §9 The `End` anchor (C4) -/

/-- Claim C4: for a validated `End` node (mode assigned), on the LEFT
traversal side `full_match` yields the input match — exactly once, unchanged —
iff `next` is null, or the mode is BREADTH and `next` has no preceding tag
sibling, or the mode is DEPTH and `next`'s parent is not a tag; on the RIGHT
side it yields the match iff `next` is null. -/
theorem end_anchor_yields (doc : HNode) (gd : GlobalData) (fuel : Nat) (md : Mode)
    (m : Match) :
    (m.travSide = some TravSide.LEFT →
      (fullMatch doc gd fuel (.endNode (some md)) m = .ok [m] ↔
        (m.next = none ∨
          ∃ p, m.next = some p ∧
            ((md = Mode.BREADTH ∧ hasPrecedingTagSibling doc p = false) ∨
             (md = Mode.DEPTH ∧ parentIsTag doc p = false)))) ∧
      (¬(m.next = none ∨
          ∃ p, m.next = some p ∧
            ((md = Mode.BREADTH ∧ hasPrecedingTagSibling doc p = false) ∨
             (md = Mode.DEPTH ∧ parentIsTag doc p = false))) →
        fullMatch doc gd fuel (.endNode (some md)) m = .ok [])) ∧
    (m.travSide = some TravSide.RIGHT →
      (fullMatch doc gd fuel (.endNode (some md)) m = .ok [m] ↔ m.next = none) ∧
      (m.next ≠ none → fullMatch doc gd fuel (.endNode (some md)) m = .ok [])) := by
  constructor
  · intro hts
    cases hnext : m.next with
    | none =>
      constructor
      · simp [fullMatch, hts, hnext]
      · intro hn
        exact absurd (Or.inl rfl) hn
    | some p =>
      have hsimp :
          fullMatch doc gd fuel (.endNode (some md)) m =
            .ok (if some md = some Mode.BREADTH && !hasPrecedingTagSibling doc p then [m]
              else if some md = some Mode.DEPTH && !parentIsTag doc p then [m]
              else []) := by
        simp [fullMatch, hts, hnext]
      constructor
      · rw [hsimp]
        constructor
        · intro heq
          refine Or.inr ⟨p, rfl, ?_⟩
          by_cases hA : (some md = some Mode.BREADTH && !hasPrecedingTagSibling doc p) = true
          · rcases Bool.and_eq_true_iff.mp hA with ⟨h1, h2⟩
            exact Or.inl ⟨by simpa using of_decide_eq_true h1, by simpa using h2⟩
          · rw [Bool.not_eq_true] at hA
            rw [hA, if_neg (by simp)] at heq
            by_cases hB : (some md = some Mode.DEPTH && !parentIsTag doc p) = true
            · rcases Bool.and_eq_true_iff.mp hB with ⟨h1, h2⟩
              exact Or.inr ⟨by simpa using of_decide_eq_true h1, by simpa using h2⟩
            · rw [Bool.not_eq_true] at hB
              rw [hB, if_neg (by simp)] at heq
              simp at heq
        · rintro (hc | ⟨p', hp', hc⟩)
          · simp at hc
          · cases Option.some.inj hp'
            rcases hc with ⟨hmd, hcond⟩ | ⟨hmd, hcond⟩
            · subst hmd
              rw [if_pos (by simp [hcond])]
            · subst hmd
              rw [if_neg (by simp), if_pos (by simp [hcond])]
      · intro hn
        rw [hsimp]
        have hnb : ¬((md = Mode.BREADTH ∧ hasPrecedingTagSibling doc p = false) ∨
            (md = Mode.DEPTH ∧ parentIsTag doc p = false)) := by
          intro hc
          exact hn (Or.inr ⟨p, rfl, hc⟩)
        rw [if_neg, if_neg]
        · intro hB
          rcases Bool.and_eq_true_iff.mp hB with ⟨h1, h2⟩
          exact hnb (Or.inr ⟨by simpa using of_decide_eq_true h1, by simpa using h2⟩)
        · intro hA
          rcases Bool.and_eq_true_iff.mp hA with ⟨h1, h2⟩
          exact hnb (Or.inl ⟨by simpa using of_decide_eq_true h1, by simpa using h2⟩)
  · intro hts
    have hneq : m.travSide ≠ some TravSide.LEFT := by
      rw [hts]
      intro hc
      cases hc
    cases hnext : m.next with
    | none =>
      constructor
      · simp [fullMatch, hneq, hnext]
      · intro hn
        exact absurd rfl hn
    | some p =>
      constructor
      · simp [fullMatch, hneq, hnext]
      · intro _
        simp [fullMatch, hneq, hnext]

/-- witness for C4: on `docW`, the root has no parent tag, so `$` on the LEFT
in DEPTH mode yields the initial match. -/
theorem end_anchor_yields_witness :
    fullMatch docW gdW 3 (.endNode (some Mode.DEPTH)) (mW.side TravSide.LEFT) = .ok [mW.side TravSide.LEFT] :=
  ((end_anchor_yields docW gdW 3 Mode.DEPTH (mW.side TravSide.LEFT)).1 rfl).1.mpr
    (Or.inr ⟨[], rfl, Or.inr ⟨rfl, rfl⟩⟩)

/-! ## §10 Mode discipline of `TravOp`/`RepOp` validation (C6) -/

/-- Claim C6: validating a `TravOp` or `RepOp` node fails with `ModeMismatch`
iff the (traversal) operator is `:`/`::` while the mode is not BREADTH, or
`>`/`>>` while the mode is not DEPTH (the test `modeBad`); otherwise
validation of the node proceeds to its children. -/
theorem travRep_mode_mismatch (mo : Option Mode) (l r e : Nd) (op rep : String) (md : Mode) :
    (modeBad op md = true →
      validate (.travOp mo l op r) md = .error (.modeMismatch op md) ∧
      validate (.repOp mo e op rep) md = .error (.modeMismatch op md)) ∧
    (modeBad op md = false →
      validate (.travOp mo l op r) md = (do
        let l' ← validate l md
        let r' ← validate r md
        .ok (.travOp (some md) l' op r')) ∧
      validate (.repOp mo e op rep) md = (do
        let e' ← validate e md
        .ok (.repOp (some md) e' op rep))) := by
  constructor
  · intro hbad
    constructor
    · simp [validate, hbad]
    · simp [validate, hbad]
  · intro hgood
    constructor
    · simp [validate, hgood]
    · simp [validate, hgood]

/-- witness for C6: `:` is rejected in DEPTH mode and accepted in BREADTH mode -/
theorem travRep_mode_mismatch_witness :
    (validate (.travOp none (.endNode none) ":" (.endNode none)) Mode.DEPTH =
        .error (.modeMismatch ":" Mode.DEPTH) ∧
      validate (.repOp none (.endNode none) ":" "*") Mode.DEPTH =
        .error (.modeMismatch ":" Mode.DEPTH)) ∧
    (validate (.travOp none (.endNode none) ":" (.endNode none)) Mode.BREADTH = (do
        let l' ← validate (.endNode none) Mode.BREADTH
        let r' ← validate (.endNode none) Mode.BREADTH
        .ok (.travOp (some Mode.BREADTH) l' ":" r')) ∧
      validate (.repOp none (.endNode none) ":" "*") Mode.BREADTH = (do
        let e' ← validate (.endNode none) Mode.BREADTH
        .ok (.repOp (some Mode.BREADTH) e' ":" "*"))) :=
  ⟨(travRep_mode_mismatch none (.endNode none) (.endNode none) (.endNode none) ":" "*"
      Mode.DEPTH).1 (by decide),
    (travRep_mode_mismatch none (.endNode none) (.endNode none) (.endNode none) ":" "*"
      Mode.BREADTH).2 (by decide)⟩

/-! ## §11 `Document.full_match` requires the synthetic root (C7) -/

/-- Claim C7: `Document.full_match` demands that the input's `next` be the
synthetic document root: if its name is not `"[document]"` it fails with
`NotADocument`, yielding nothing; on the document root it delegates
`expr.full_match` to the root itself and then to every descendant tag in
document order (the `>>` enumeration). -/
theorem document_requires_root (doc : HNode) (gd : GlobalData) (fuel : Nat)
    (mo : Option Mode) (expr : Nd) (m : Match) (p : TPath) (hp : m.next = some p) :
    (nameAt doc p ≠ "[document]" →
      fullMatch doc gd fuel (.document mo expr) m = .error .notADocument) ∧
    (nameAt doc p = "[document]" →
      descendByOp doc (some p) ">>" = some p :: (descendantTagPaths doc p).map some ∧
      fullMatch doc gd fuel (.document mo expr) m =
        listBindE (some p :: (descendantTagPaths doc p).map some)
          (fun n => fullMatch doc gd fuel expr (m.progress m.next n none none))) := by
  constructor
  · intro hname
    simp [fullMatch, hp, hname]
  · intro hname
    have hdesc : descendByOp doc (some p) ">>" = some p :: (descendantTagPaths doc p).map some := by
      simp [descendByOp]
    refine ⟨hdesc, ?_⟩
    simp only [fullMatch, hp]
    rw [if_neg (by simp [hname]), hdesc]

/-- witness for C7: matching `$` directly on the root of `docW` delegates to
root, outer `<p>` and inner `<p>`; on the outer `<p>` it raises `NotADocument`. -/
theorem document_requires_root_witness :
    fullMatch docW gdW 3 (.document (some Mode.DEPTH) (.endNode (some Mode.DEPTH)))
        ⟨none, some [0], [[]], none⟩ = .error .notADocument ∧
    fullMatch docW gdW 3 (.document (some Mode.DEPTH) (.endNode (some Mode.DEPTH))) mW =
      listBindE (some [] :: (descendantTagPaths docW []).map some)
        (fun n => fullMatch docW gdW 3 (.endNode (some Mode.DEPTH))
          (mW.progress mW.next n none none)) :=
  ⟨(document_requires_root docW gdW 3 (some Mode.DEPTH) (.endNode (some Mode.DEPTH))
      ⟨none, some [0], [[]], none⟩ [0] rfl).1 (by decide),
    ((document_requires_root docW gdW 3 (some Mode.DEPTH) (.endNode (some Mode.DEPTH))
      mW [] rfl).2 (by decide)).2⟩

/-! ## §12 Mode assignment after validation (C3)

`ModeSwitch.validate` never calls `super().validate` and never assigns
`self.mode`; it only records `outer_mode`.  So validation leaves every
`ModeSwitch` node's `mode` untouched — null in a compiled expression — while
every other node receives the current mode. -/

def tagModesAssigned : TagNd → Bool
  | .nameTag mo _ => mo.isSome
  | .classTag mo _ => mo.isSome
  | .idTag mo _ => mo.isSome
  | .bothTag mo l r => mo.isSome && tagModesAssigned l && tagModesAssigned r
  | .notTag mo t => mo.isSome && tagModesAssigned t

/-- every node except `ModeSwitch` has a mode; every `ModeSwitch` has an
`outer_mode` -/
def modesAssigned : Nd → Bool
  | .tag t => tagModesAssigned t
  | .extractors mo e _ => mo.isSome && modesAssigned e
  | .filter mo e _ => mo.isSome && modesAssigned e
  | .travOp mo l _ r => mo.isSome && modesAssigned l && modesAssigned r
  | .repOp mo e _ _ => mo.isSome && modesAssigned e
  | .monOp mo e _ => mo.isSome && modesAssigned e
  | .binOp mo l _ r => mo.isSome && modesAssigned l && modesAssigned r
  | .modeSwitch _ om te ce => om.isSome && modesAssigned te && modesAssigned ce
  | .endNode mo => mo.isSome
  | .document mo e => mo.isSome && modesAssigned e

/-- the claim's property: EVERY node, `ModeSwitch` included, has a mode -/
def modesAssignedStrict : Nd → Bool
  | .tag t => tagModesAssigned t
  | .extractors mo e _ => mo.isSome && modesAssignedStrict e
  | .filter mo e _ => mo.isSome && modesAssignedStrict e
  | .travOp mo l _ r => mo.isSome && modesAssignedStrict l && modesAssignedStrict r
  | .repOp mo e _ _ => mo.isSome && modesAssignedStrict e
  | .monOp mo e _ => mo.isSome && modesAssignedStrict e
  | .binOp mo l _ r => mo.isSome && modesAssignedStrict l && modesAssignedStrict r
  | .modeSwitch mo om te ce =>
    mo.isSome && om.isSome && modesAssignedStrict te && modesAssignedStrict ce
  | .endNode mo => mo.isSome
  | .document mo e => mo.isSome && modesAssignedStrict e

/-- every `ModeSwitch` node's own `mode` field is null (true of freshly
parsed trees: the parser builds every node with `mode = None`) -/
def switchModesNone : Nd → Bool
  | .tag _ => true
  | .extractors _ e _ => switchModesNone e
  | .filter _ e _ => switchModesNone e
  | .travOp _ l _ r => switchModesNone l && switchModesNone r
  | .repOp _ e _ _ => switchModesNone e
  | .monOp _ e _ => switchModesNone e
  | .binOp _ l _ r => switchModesNone l && switchModesNone r
  | .modeSwitch mo _ te ce => mo.isNone && switchModesNone te && switchModesNone ce
  | .endNode _ => true
  | .document _ e => switchModesNone e

theorem tagValidate_modes :
    ∀ (t : TagNd) (md : Mode) (t' : TagNd), tagValidate t md = .ok t' →
      tagModesAssigned t' = true := by
  intro t
  induction t with
  | nameTag mo n =>
    intro md t' h
    simp only [tagValidate, Except.ok.injEq] at h
    subst h
    rfl
  | classTag mo k =>
    intro md t' h
    simp only [tagValidate, Except.ok.injEq] at h
    subst h
    rfl
  | idTag mo i =>
    intro md t' h
    simp only [tagValidate, Except.ok.injEq] at h
    subst h
    rfl
  | bothTag mo l r ihl ihr =>
    intro md t' h
    simp only [tagValidate] at h
    cases hl : tagValidate l md with
    | error e => rw [hl, bindE_err] at h; simp at h
    | ok l' =>
      rw [hl, bindE_ok] at h
      cases hr : tagValidate r md with
      | error e => rw [hr, bindE_err] at h; simp at h
      | ok r' =>
        rw [hr, bindE_ok] at h
        split_ifs at h
        simp only [Except.ok.injEq] at h
        subst h
        simp [tagModesAssigned, ihl md l' hl, ihr md r' hr]
  | notTag mo t iht =>
    intro md t' h
    simp only [tagValidate] at h
    cases ht : tagValidate t md with
    | error e => rw [ht, bindE_err] at h; simp at h
    | ok t1 =>
      rw [ht, bindE_ok] at h
      simp only [Except.ok.injEq] at h
      subst h
      simp [tagModesAssigned, iht md t1 ht]

/-- Claim C3 (amended): after successful validation every node other than a
`ModeSwitch` carries a non-null `mode` and every `ModeSwitch` carries a
non-null `outer_mode`; a `ModeSwitch` node's own `mode` field is never
assigned by validation (it stays null in a freshly parsed tree, as
`ModeSwitch.validate` never calls `super().validate`). -/
theorem validate_modes :
    ∀ (e : Nd) (md : Mode) (e' : Nd), validate e md = .ok e' →
      modesAssigned e' = true ∧ (switchModesNone e = true → switchModesNone e' = true) := by
  intro e
  induction e with
  | tag t =>
    intro md e' h
    simp only [validate] at h
    cases ht : tagValidate t md with
    | error er => rw [ht, bindE_err] at h; simp at h
    | ok t' =>
      rw [ht, bindE_ok] at h
      simp only [Except.ok.injEq] at h
      subst h
      exact ⟨tagValidate_modes t md t' ht, fun _ => rfl⟩
  | extractors mo e exl ih =>
    intro md e' h
    simp only [validate] at h
    cases he : validate e md with
    | error er => rw [he, bindE_err] at h; simp at h
    | ok e1 =>
      rw [he, bindE_ok] at h
      cases hfind : exl.find? (fun ex => !extractorTypeOk ex.type) with
      | some bad => rw [hfind] at h; simp at h
      | none =>
        rw [hfind] at h
        simp only [Except.ok.injEq] at h
        subst h
        refine ⟨?_, ?_⟩
        · simp [modesAssigned, (ih md e1 he).1]
        · intro hs
          exact (ih md e1 he).2 hs
  | filter mo e f ih =>
    intro md e' h
    simp only [validate] at h
    cases he : validate e md with
    | error er => rw [he, bindE_err] at h; simp at h
    | ok e1 =>
      rw [he, bindE_ok] at h
      simp only [Except.ok.injEq] at h
      subst h
      exact ⟨by simp [modesAssigned, (ih md e1 he).1], fun hs => (ih md e1 he).2 hs⟩
  | travOp mo l op r ihl ihr =>
    intro md e' h
    simp only [validate] at h
    split_ifs at h
    cases hl : validate l md with
    | error er => rw [hl, bindE_err] at h; simp at h
    | ok l1 =>
      rw [hl, bindE_ok] at h
      cases hr : validate r md with
      | error er => rw [hr, bindE_err] at h; simp at h
      | ok r1 =>
        rw [hr, bindE_ok] at h
        simp only [Except.ok.injEq] at h
        subst h
        refine ⟨by simp [modesAssigned, (ihl md l1 hl).1, (ihr md r1 hr).1], ?_⟩
        intro hs
        rcases Bool.and_eq_true_iff.mp hs with ⟨h1, h2⟩
        simp [switchModesNone, (ihl md l1 hl).2 h1, (ihr md r1 hr).2 h2]
  | repOp mo e trav rep ih =>
    intro md e' h
    simp only [validate] at h
    split_ifs at h
    cases he : validate e md with
    | error er => rw [he, bindE_err] at h; simp at h
    | ok e1 =>
      rw [he, bindE_ok] at h
      simp only [Except.ok.injEq] at h
      subst h
      exact ⟨by simp [modesAssigned, (ih md e1 he).1], fun hs => (ih md e1 he).2 hs⟩
  | monOp mo e op ih =>
    intro md e' h
    simp only [validate] at h
    cases he : validate e md with
    | error er => rw [he, bindE_err] at h; simp at h
    | ok e1 =>
      rw [he, bindE_ok] at h
      simp only [Except.ok.injEq] at h
      subst h
      exact ⟨by simp [modesAssigned, (ih md e1 he).1], fun hs => (ih md e1 he).2 hs⟩
  | binOp mo l op r ihl ihr =>
    intro md e' h
    simp only [validate] at h
    cases hl : validate l md with
    | error er => rw [hl, bindE_err] at h; simp at h
    | ok l1 =>
      rw [hl, bindE_ok] at h
      cases hr : validate r md with
      | error er => rw [hr, bindE_err] at h; simp at h
      | ok r1 =>
        rw [hr, bindE_ok] at h
        simp only [Except.ok.injEq] at h
        subst h
        refine ⟨by simp [modesAssigned, (ihl md l1 hl).1, (ihr md r1 hr).1], ?_⟩
        intro hs
        rcases Bool.and_eq_true_iff.mp hs with ⟨h1, h2⟩
        simp [switchModesNone, (ihl md l1 hl).2 h1, (ihr md r1 hr).2 h2]
  | modeSwitch mo om te ce ihte ihce =>
    intro md e' h
    simp only [validate] at h
    cases hte : validate te md with
    | error er => rw [hte, bindE_err] at h; simp at h
    | ok te1 =>
      rw [hte, bindE_ok] at h
      cases hce : validate ce md.opposite with
      | error er => rw [hce, bindE_err] at h; simp at h
      | ok ce1 =>
        rw [hce, bindE_ok] at h
        simp only [Except.ok.injEq] at h
        subst h
        refine ⟨by simp [modesAssigned, (ihte md te1 hte).1, (ihce md.opposite ce1 hce).1], ?_⟩
        intro hs
        rcases Bool.and_eq_true_iff.mp hs with ⟨h1, h2⟩
        rcases Bool.and_eq_true_iff.mp h1 with ⟨h0, h1⟩
        simp [switchModesNone, h0, (ihte md te1 hte).2 h1, (ihce md.opposite ce1 hce).2 h2]
  | endNode mo =>
    intro md e' h
    simp only [validate, Except.ok.injEq] at h
    subst h
    exact ⟨rfl, fun _ => rfl⟩
  | document mo e ih =>
    intro md e' h
    simp only [validate] at h
    cases he : validate e md with
    | error er => rw [he, bindE_err] at h; simp at h
    | ok e1 =>
      rw [he, bindE_ok] at h
      simp only [Except.ok.injEq] at h
      subst h
      exact ⟨by simp [modesAssigned, (ih md e1 he).1], fun hs => (ih md e1 he).2 hs⟩

/-- the freshly parsed AST of `{a}` (every `mode` null), wrapped in `Document` -/
def eC3 : Nd :=
  .document none
    (.modeSwitch none none (.tag (.nameTag none none)) (.tag (.nameTag none (some "a"))))

/-- its validation result: note the `ModeSwitch` node's `mode` is still `none` -/
def eC3v : Nd :=
  .document (some .DEPTH)
    (.modeSwitch none (some .DEPTH) (.tag (.nameTag (some .DEPTH) none))
      (.tag (.nameTag (some .BREADTH) (some "a"))))

/-- Counterexample to C3: the expression `{a}` compiles (validates in DEPTH
mode), yet the `ModeSwitch` node of the result keeps a null `mode` field, so
not every node of the validated AST has a non-null mode. -/
theorem validate_modeSwitch_mode_left_null :
    validate eC3 Mode.DEPTH = .ok eC3v ∧ modesAssignedStrict eC3v = false := by decide

/-- witness for the amended C3 on the concrete compiled `{a}` -/
theorem validate_modes_witness :
    modesAssigned eC3v = true ∧ switchModesNone eC3v = true :=
  ⟨(validate_modes eC3 Mode.DEPTH eC3v (by decide)).1,
    (validate_modes eC3 Mode.DEPTH eC3v (by decide)).2 (by decide)⟩

/-! ## §13 `BothTag` shape checks (C8) -/

theorem tagValidate_err_tagShape :
    ∀ (t : TagNd) (md : Mode) (e : VErr), tagValidate t md = .error e →
      ∃ s, e = .tagShape s := by
  intro t
  induction t with
  | nameTag mo n => intro md e h; simp [tagValidate] at h
  | classTag mo k => intro md e h; simp [tagValidate] at h
  | idTag mo i => intro md e h; simp [tagValidate] at h
  | bothTag mo l r ihl ihr =>
    intro md e h
    simp only [tagValidate] at h
    cases hl : tagValidate l md with
    | error e1 =>
      rw [hl, bindE_err] at h
      simp only [Except.error.injEq] at h
      exact h ▸ ihl md e1 hl
    | ok l' =>
      rw [hl, bindE_ok] at h
      cases hr : tagValidate r md with
      | error e1 =>
        rw [hr, bindE_err] at h
        simp only [Except.error.injEq] at h
        exact h ▸ ihr md e1 hr
      | ok r' =>
        rw [hr, bindE_ok] at h
        split_ifs at h <;> simp only [Except.error.injEq] at h <;> exact ⟨_, h.symm⟩
  | notTag mo t iht =>
    intro md e h
    simp only [tagValidate] at h
    cases ht : tagValidate t md with
    | error e1 =>
      rw [ht, bindE_err] at h
      simp only [Except.error.injEq] at h
      exact h ▸ iht md e1 ht
    | ok t1 =>
      rw [ht, bindE_ok] at h
      simp at h

/-- Claim C8: validating a `BothTag` rejects it with a `TagShape` error when
the right operand carries a name or both operands carry an id, and otherwise
accepts it (its own check passes; the result is whatever validating the two
operands gives).  A `NotTag` operand carries neither a name nor an id for this
check, regardless of what it wraps. -/
theorem bothTag_shape_check (mo : Option Mode) (l r : TagNd) (md : Mode) :
    ((r.hasName || (l.hasId && r.hasId)) = true →
      ∃ s, tagValidate (.bothTag mo l r) md = .error (.tagShape s)) ∧
    ((r.hasName || (l.hasId && r.hasId)) = false →
      tagValidate (.bothTag mo l r) md = (do
        let l' ← tagValidate l md
        let r' ← tagValidate r md
        .ok (.bothTag (some md) l' r'))) ∧
    (∀ (mo' : Option Mode) (t : TagNd),
      (TagNd.notTag mo' t).hasName = false ∧ (TagNd.notTag mo' t).hasId = false) := by
  refine ⟨?_, ?_, fun mo' t => ⟨rfl, rfl⟩⟩
  · intro hcond
    cases hl : tagValidate l md with
    | error e =>
      obtain ⟨s, rfl⟩ := tagValidate_err_tagShape l md e hl
      exact ⟨s, by simp only [tagValidate]; rw [hl, bindE_err]⟩
    | ok l' =>
      cases hr : tagValidate r md with
      | error e =>
        obtain ⟨s, rfl⟩ := tagValidate_err_tagShape r md e hr
        exact ⟨s, by simp only [tagValidate]; rw [hl, bindE_ok, hr, bindE_err]⟩
      | ok r' =>
        by_cases hn : r.hasName = true
        · refine ⟨"Tag name should be on the left", ?_⟩
          simp only [tagValidate]
          rw [hl, bindE_ok, hr, bindE_ok, if_pos hn]
        · have hids : (l.hasId && r.hasId) = true := by
            rcases Bool.or_eq_true_iff.mp hcond with h | h
            · exact absurd h hn
            · exact h
          refine ⟨"Cannot have two or more ids", ?_⟩
          simp only [tagValidate]
          rw [hl, bindE_ok, hr, bindE_ok, if_neg hn, if_pos hids]
  · intro hcond
    rcases Bool.or_eq_false_iff.mp hcond with ⟨hn, hids⟩
    cases hl : tagValidate l md with
    | error e =>
      simp only [tagValidate]
      rw [hl, bindE_err, bindE_err]
    | ok l' =>
      cases hr : tagValidate r md with
      | error e =>
        simp only [tagValidate]
        rw [hl, bindE_ok, bindE_ok, hr, bindE_err, bindE_err]
      | ok r' =>
        simp only [tagValidate]
        rw [hl, bindE_ok, bindE_ok, hr, bindE_ok, bindE_ok,
          if_neg (by simp [hn]), if_neg (by simp [hids])]

/-- witness for C8: `#x #y` (two ids) is rejected; `a #x` is accepted -/
theorem bothTag_shape_check_witness :
    (∃ s, tagValidate (.bothTag none (.idTag none "x") (.idTag none "y")) Mode.DEPTH =
      .error (.tagShape s)) ∧
    tagValidate (.bothTag none (.nameTag none (some "a")) (.idTag none "x")) Mode.DEPTH = (do
      let l' ← tagValidate (.nameTag none (some "a")) Mode.DEPTH
      let r' ← tagValidate (.idTag none "x") Mode.DEPTH
      .ok (.bothTag (some Mode.DEPTH) l' r')) :=
  ⟨(bothTag_shape_check none (.idTag none "x") (.idTag none "y") Mode.DEPTH).1 (by decide),
    (bothTag_shape_check none (.nameTag none (some "a")) (.idTag none "x") Mode.DEPTH).2.1
      (by decide)⟩

/-! ## §14 Extractor evaluation (C9) -/

/-- Claim C9: for a tag node and an attribute extractor `.attr`,
`Extractor.extract` returns the attribute's string value, and the empty string
(not null, without raising) when the attribute is absent; the `node` extractor
returns the tag itself and `txt` its recursively concatenated text. -/
theorem extractor_extract_spec (doc : HNode) (p : TPath) (t : String) (uid : Nat)
    (v : String) :
    (pyStartsWith t "." = true → t ≠ "node" → t ≠ "txt" →
      (attrLookup (attrsAt doc p) (t.drop 1) = some (.str v) →
        Extractor.extract doc ⟨t, uid⟩ p = .str v) ∧
      (attrLookup (attrsAt doc p) (t.drop 1) = none →
        Extractor.extract doc ⟨t, uid⟩ p = .str "")) ∧
    Extractor.extract doc ⟨"node", uid⟩ p = .tag p ∧
    Extractor.extract doc ⟨"txt", uid⟩ p = .str (textAt doc p) := by
  refine ⟨?_, rfl, rfl⟩
  intro hdot hnode htxt
  constructor
  · intro hlook
    simp [Extractor.extract, hnode, htxt, hdot, hlook, pyStrOfAttr]
  · intro hlook
    simp [Extractor.extract, hnode, htxt, hdot, hlook, pyStrOfAttr]

/-- witness for C9: on `docW`, `.id` of the outer `<p>` is `"outer"` and a
missing `.href` gives `""` -/
theorem extractor_extract_spec_witness :
    Extractor.extract docW ⟨".id", 0⟩ [0] = .str "outer" ∧
    Extractor.extract docW ⟨".href", 0⟩ [0] = .str "" :=
  ⟨((extractor_extract_spec docW [0] ".id" 0 "outer").1 (by decide) (by decide)
      (by decide)).1 (by decide),
    ((extractor_extract_spec docW [0] ".href" 0 "").1 (by decide) (by decide)
      (by decide)).2 (by decide)⟩

/-! ## §15 `Tag.full_match` keeps `current` non-null (C10) -/

theorem listMapE_ok_of_all {α β ε : Type} :
    ∀ (l : List α) (f : α → Except ε β), (∀ a ∈ l, ∃ b, f a = .ok b) →
      ∃ out, listMapE l f = .ok out := by
  intro l
  induction l with
  | nil => intro f _; exact ⟨[], rfl⟩
  | cons x xs ih =>
    intro f hall
    obtain ⟨b, hb⟩ := hall x (List.mem_cons_self _ _)
    obtain ⟨out, hout⟩ := ih f (fun a ha => hall a (List.mem_cons_of_mem _ ha))
    refine ⟨b :: out, ?_⟩
    simp only [listMapE]
    rw [hb, bindE_ok, hout, bindE_ok]

theorem listFilterE_ne_err {α ε : Type} [DecidableEq ε] :
    ∀ (l : List α) (f : α → Except ε Bool) (err : ε),
      (∀ a ∈ l, f a ≠ .error err) → listFilterE l f ≠ .error err := by
  intro l
  induction l with
  | nil => intro f err _ h; simp [listFilterE] at h
  | cons x xs ih =>
    intro f err hall h
    simp only [listFilterE] at h
    cases hx : f x with
    | error e =>
      rw [hx, bindE_err] at h
      simp only [Except.error.injEq] at h
      exact hall x (List.mem_cons_self _ _) (h ▸ hx)
    | ok b =>
      rw [hx, bindE_ok] at h
      cases hxs : listFilterE xs f with
      | error e =>
        rw [hxs, bindE_err] at h
        simp only [Except.error.injEq] at h
        exact ih f err (fun a ha => hall a (List.mem_cons_of_mem _ ha)) (h ▸ hxs)
      | ok ys =>
        rw [hxs, bindE_ok] at h
        simp at h

theorem filterValue_ne_assert (doc : HNode) (gd : GlobalData) :
    ∀ (fe : FilterExpr) (p : TPath), filterValue doc gd fe p ≠ .error .assertFilter := by
  intro fe
  induction fe with
  | extractorF ex =>
    intro p h
    simp only [filterValue] at h
    split at h <;> simp at h
  | funcF n =>
    intro p h
    simp only [filterValue] at h
    split at h <;> simp at h
  | literalF v => intro p h; simp [filterValue] at h
  | opF l op r ihl ihr =>
    intro p h
    simp only [filterValue] at h
    split_ifs at h
    case _ =>
      cases ha : filterValue doc gd l p with
      | error e =>
        rw [ha, bindE_err] at h
        simp only [Except.error.injEq] at h
        exact ihl p (h ▸ ha)
      | ok a =>
        rw [ha, bindE_ok] at h
        by_cases ht : truthy a = true
        · rw [if_pos ht] at h
          cases hb : filterValue doc gd r p with
          | error e =>
            rw [hb, bindE_err] at h
            simp only [Except.error.injEq] at h
            exact ihr p (h ▸ hb)
          | ok b =>
            rw [hb, bindE_ok] at h
            simp at h
        · rw [if_neg ht] at h
          simp at h
    case _ =>
      cases ha : filterValue doc gd l p with
      | error e =>
        rw [ha, bindE_err] at h
        simp only [Except.error.injEq] at h
        exact ihl p (h ▸ ha)
      | ok a =>
        rw [ha, bindE_ok] at h
        by_cases ht : truthy a = true
        · rw [if_pos ht] at h
          simp at h
        · rw [if_neg ht] at h
          cases hb : filterValue doc gd r p with
          | error e =>
            rw [hb, bindE_err] at h
            simp only [Except.error.injEq] at h
            exact ihr p (h ▸ hb)
          | ok b =>
            rw [hb, bindE_ok] at h
            simp at h
    case _ =>
      cases ha : filterValue doc gd l p with
      | error e =>
        rw [ha, bindE_err] at h
        simp only [Except.error.injEq] at h
        exact ihl p (h ▸ ha)
      | ok a =>
        rw [ha, bindE_ok] at h
        cases hb : filterValue doc gd r p with
        | error e =>
          rw [hb, bindE_err] at h
          simp only [Except.error.injEq] at h
          exact ihr p (h ▸ hb)
        | ok b =>
          rw [hb, bindE_ok] at h
          simp at h
    case _ =>
      cases ha : filterValue doc gd l p with
      | error e =>
        rw [ha, bindE_err] at h
        simp only [Except.error.injEq] at h
        exact ihl p (h ▸ ha)
      | ok a =>
        rw [ha, bindE_ok] at h
        cases hb : filterValue doc gd r p with
        | error e =>
          rw [hb, bindE_err] at h
          simp only [Except.error.injEq] at h
          exact ihr p (h ▸ hb)
        | ok b =>
          rw [hb, bindE_ok] at h
          simp at h
    case _ =>
      cases ha : filterValue doc gd l p with
      | error e =>
        rw [ha, bindE_err] at h
        simp only [Except.error.injEq] at h
        exact ihl p (h ▸ ha)
      | ok a =>
        rw [ha, bindE_ok] at h
        split at h
        · cases hb : filterValue doc gd r p with
          | error e =>
            rw [hb, bindE_err] at h
            simp only [Except.error.injEq] at h
            exact ihr p (h ▸ hb)
          | ok b =>
            rw [hb, bindE_ok] at h
            split at h <;> simp at h
        · simp at h
    case _ =>
      cases ha : filterValue doc gd l p with
      | error e =>
        rw [ha, bindE_err] at h
        simp only [Except.error.injEq] at h
        exact ihl p (h ▸ ha)
      | ok a =>
        rw [ha, bindE_ok] at h
        split at h
        · cases hb : filterValue doc gd r p with
          | error e =>
            rw [hb, bindE_err] at h
            simp only [Except.error.injEq] at h
            exact ihr p (h ▸ hb)
          | ok b =>
            rw [hb, bindE_ok] at h
            split at h <;> simp at h
        · simp at h

/-- Claim C10: in either mode, every match yielded by `Tag.full_match` has
`current` set to the input's `next`, which is non-null and satisfies the tag's
predicate; consequently `Extractors.full_match` and `Filter.full_match`
applied directly over a tag expression never observe a null `current` (the
extractor layer succeeds and the filter layer never trips its assertion). -/
theorem tag_full_match_current (doc : HNode) (gd : GlobalData) (fuel : Nat)
    (t : TagNd) (m : Match) :
    (∀ x ∈ tagFullMatch doc t m,
      x.current = m.next ∧ ∃ p, m.next = some p ∧ tagMatch doc t p = true) ∧
    (∀ (mo : Option Mode) (exl : List Extractor),
      ∃ out, fullMatch doc gd fuel (.extractors mo (.tag t) exl) m = .ok out) ∧
    (∀ (mo : Option Mode) (f : FilterExpr),
      fullMatch doc gd fuel (.filter mo (.tag t) f) m ≠ .error .assertFilter) := by
  have hcur : ∀ x ∈ tagFullMatch doc t m,
      x.current = m.next ∧ ∃ p, m.next = some p ∧ tagMatch doc t p = true := by
    intro x hx
    cases hnext : m.next with
    | none => simp [tagFullMatch, hnext] at hx
    | some p =>
      simp only [tagFullMatch, hnext] at hx
      by_cases htm : tagMatch doc t p = true
      · rw [htm] at hx
        simp only [Bool.not_true, if_neg Bool.false_ne_true] at hx
        refine ⟨?_, p, rfl, htm⟩
        by_cases hmd : t.mode = some Mode.DEPTH
        · rw [if_pos hmd] at hx
          by_cases hemp : (childTagPaths doc p).isEmpty = true
          · rw [if_pos hemp] at hx
            rcases List.mem_singleton.mp hx with rfl
            rfl
          · rw [if_neg hemp] at hx
            obtain ⟨c, -, rfl⟩ := List.mem_map.mp hx
            rfl
        · rw [if_neg hmd] at hx
          cases hfs : firstTagSibling doc p with
          | some s =>
            rw [hfs] at hx
            have hx' : x ∈ [m.progress (some p) (some s) none none] := hx
            rcases List.mem_singleton.mp hx' with rfl
            rfl
          | none =>
            rw [hfs] at hx
            have hx' : x ∈ [m.progress (some p) none none none] := hx
            rcases List.mem_singleton.mp hx' with rfl
            rfl
      · rw [Bool.not_eq_true] at htm
        rw [htm] at hx
        simp at hx
  refine ⟨hcur, ?_, ?_⟩
  · intro mo exl
    have h1 : fullMatch doc gd fuel (.extractors mo (.tag t) exl) m =
        listMapE (tagFullMatch doc t m) (fun sm =>
          match sm.current with
          | some c =>
            .ok (sm.progress (some c) sm.next
              (some (exl.map (fun ex => EM.leaf (some c) ex))) none)
          | none => .error .assertExtract) := by
      simp only [fullMatch]
      rw [bindE_ok]
    rw [h1]
    refine listMapE_ok_of_all _ _ ?_
    intro sm hsm
    obtain ⟨hc, p, hp, -⟩ := hcur sm hsm
    have hcs : sm.current = some p := by rw [hc, hp]
    rw [hcs]
    exact ⟨_, rfl⟩
  · intro mo f
    have h1 : fullMatch doc gd fuel (.filter mo (.tag t) f) m =
        listFilterE (tagFullMatch doc t m) (fun sm =>
          match sm.current with
          | some c => do
            let v ← filterValue doc gd f c
            .ok (truthy v)
          | none => .error .assertFilter) := by
      simp only [fullMatch]
      rw [bindE_ok]
    rw [h1]
    refine listFilterE_ne_err _ _ _ ?_
    intro sm hsm
    obtain ⟨hc, p, hp, -⟩ := hcur sm hsm
    have hcs : sm.current = some p := by rw [hc, hp]
    rw [hcs]
    show (do
      let v ← filterValue doc gd f p
      Except.ok (truthy v)) ≠ Except.error MErr.assertFilter
    intro hcontra
    cases hv : filterValue doc gd f p with
    | error e =>
      rw [hv, bindE_err] at hcontra
      simp only [Except.error.injEq] at hcontra
      exact filterValue_ne_assert doc gd f p (hcontra ▸ hv)
    | ok v =>
      rw [hv, bindE_ok] at hcontra
      simp at hcontra

/-- witness for C10 on `docW`: the wildcard tag in DEPTH mode advances the
root match to the outer `<p>` with `current` set to the root -/
theorem tag_full_match_current_witness :
    (⟨some [], some [0], [[]], none⟩ : Match).current = mW.next ∧
    ∃ p, mW.next = some p ∧ tagMatch docW (.nameTag (some Mode.DEPTH) none) p = true :=
  (tag_full_match_current docW gdW 3 (.nameTag (some Mode.DEPTH) none) mW).1
    ⟨some [], some [0], [[]], none⟩ (by decide)

/-! ## §16 `decode_string` (C5) -/

theorem isOct_isDigit (c : Char) : isOct c = true → pyIsDigit c = true := by
  simp only [isOct, pyIsDigit, Char.isDigit, Bool.and_eq_true, decide_eq_true_eq]
  rintro ⟨h1, h2⟩
  exact ⟨h1, le_trans h2 (show ('7' : Char) ≤ '9' by decide)⟩

/-- Counterexample to C5: `decode_string` can fail.  On `\8` the regex's `.`
branch matches the digit `8`, `replace` sees `txt.isdigit()` and calls
`int("8", 8)`, which raises `ValueError`; likewise `\u` not followed by four
hex digits reaches `int("", 16)`.  The claim's "never failing" is false. -/
theorem decodeString_fails_on_digit_escape :
    decodeString "\\8" = .error intBase8Error ∧
    decodeString "\\uZZZZ" = .error intBase16Error := by decide

theorem decode_roundtrip_aux :
    decodeString "\\n\\x20\\u0020\\0\\z" = .ok [10, 32, 32, 0, 92, 122] := by decide

theorem escMap_decodes (c : Char) (e : Nat) (hesc : escMap c = some e) :
    decodeAux ['\\', c] = .ok [e] := by
  simp only [escMap] at hesc
  split_ifs at hesc <;> (cases hesc; subst_vars; decide)

theorem other_escape_kept_literal (c : Char) (hascii : c.toNat < 128)
    (hesc : escMap c = none) (hdig : pyIsDigit c = false) (hu : c ≠ 'u')
    (hU : c ≠ 'U') (hx : c ≠ 'x') (hnl : c ≠ '\n') :
    decodeAux ['\\', c] = .ok [92, c.toNat] := by
  have hoct : isOct c = false := by
    cases hc : isOct c
    · rfl
    · exact absurd (isOct_isDigit c hc) (by rw [hdig]; simp)
  rw [decodeAux.eq_10 c (fun h => hu h) (fun h => hU h) (fun h => hx h),
    if_neg (by rw [hoct]; simp), if_neg hnl]
  have hrep : replaceOne c = .ok [92, c.toNat] := by
    simp only [replaceOne, hesc]
    rw [if_neg (by omega), if_neg (by rw [hdig]; simp), if_neg (by simp [hu, hU]),
      if_neg (by simp [hx])]
  rw [hrep, bindE_ok]

/-- Claim C5 (amended): `decode_string` replaces each supported escape
sequence with its decoded character, and keeps `\c` literal for any other
ASCII character `c` that is not a digit, not one of `u`/`U`/`x`, and not a
newline.  It is not total, and it does not keep every other `\c` literal:
`\8` and `\9` raise `ValueError` (the `.` branch feeds the digit to
`int(txt, 8)`), as do `u`/`U`/`x` without the required hex digits and escapes
denoting code points above 0x10FFFF; a non-ASCII character with the Unicode
digit property also takes the `int(txt, 8)` branch (decoding `\٤` to
`chr(4)`, raising on `\²`), which is why the keep-literal part here is
scoped to ASCII.  The spec's round-trip holds: decoding the literal
characters `\n\x20 \0\z` yields newline, space, space, NUL, backslash,
`z`. -/
theorem decode_string_escapes :
    decodeString "\\n\\x20\\u0020\\0\\z" = .ok [10, 32, 32, 0, 92, 122] ∧
    (∀ (c : Char) (e : Nat), escMap c = some e → decodeAux ['\\', c] = .ok [e]) ∧
    (∀ c : Char, c.toNat < 128 → escMap c = none → pyIsDigit c = false → c ≠ 'u' →
      c ≠ 'U' → c ≠ 'x' → c ≠ '\n' → decodeAux ['\\', c] = .ok [92, c.toNat]) :=
  ⟨decode_roundtrip_aux, escMap_decodes, other_escape_kept_literal⟩

/-- witness for the amended C5: `\n` decodes to a newline and `\z` stays
literal -/
theorem decode_string_escapes_witness :
    decodeAux ['\\', 'n'] = .ok [10] ∧ decodeAux ['\\', 'z'] = .ok [92, 'z'.toNat] :=
  ⟨decode_string_escapes.2.1 'n' 10 (by decide),
    decode_string_escapes.2.2 'z' (by decide) (by decide) (by decide) (by decide)
      (by decide) (by decide) (by decide)⟩

end TQL